import Mathlib

/-!
Formal model of `drugs_finder.py` from the drug_named_entity_recognition
repository.  The module-level Python dictionaries are modelled as
insertion-ordered association lists (for the variant vocabulary, whose
truthiness and iteration order matter) and as total functions (for the
metadata stores, which per the spec's Vocabulary Loader contract supply a
metadata record for every canonical id in use; `.get(k, {})` defaults are
baked into the total function).  Python float division is modelled as exact
rational division, raised `KeyError`s as `Except.error ()`, and the
`(None, None)` sentinel as `Option.none`.  Python `set` iteration order is
unspecified; the model fixes first-occurrence order of the 3-grams in the
query string, a choice none of the proved statements depend on.
-/

deriving instance DecidableEq for Except

set_option synthInstance.maxSize 2000

namespace DrugNER

/-- Values stored in the Python metadata dictionaries: strings, numbers
(rationals standing for floats), and booleans. -/
inductive Val where
  | s (v : String)
  | q (v : ℚ)
  | b (v : Bool)
deriving DecidableEq

/-- A Python dict with string keys, as an insertion-ordered association list. -/
abbrev Dict := List (String × Val)

/-- Python `d[k] = v`: replace in place if the key is present, else append. -/
def dictSet (d : Dict) (k : String) (v : Val) : Dict :=
  if (d.lookup k).isSome then d.map (fun p => if p.1 = k then (k, v) else p)
  else d ++ [(k, v)]

/-- Python `a | b` on dicts: `a`'s entries (updated by `b` where keys clash)
followed by `b`'s new keys, in insertion order. -/
def dictUnion (a b : Dict) : Dict :=
  b.foldl (fun acc p => dictSet acc p.1 p.2) a

/-- Python `text.lower()` (per-character lowering). -/
def pyLower (t : String) : String :=
  String.mk (t.toList.map Char.toLower)

/-- The contiguous length-3 substrings of `text` in first-occurrence order;
`get_ngrams` in the source builds this collection as a `set`. -/
def get_ngrams_list (text : String) : List (List Char) :=
  ((List.range (text.length - 2)).map (fun i => (text.toList.drop i).take 3)).dedup

/-- `get_ngrams` from the source: the set of 3-grams of `text`. -/
def get_ngrams (text : String) : Finset (List Char) :=
  (get_ngrams_list text).toFinset

/-- `ngram_to_variant[g]`: all vocabulary variants containing the gram `g`,
in vocabulary iteration order (the construction loop appends each variant
once per distinct gram it contains). -/
def lookupCandidates (keys : List String) (g : List Char) : List String :=
  keys.filter (fun v => decide (g ∈ get_ngrams v))

/-- `Counter.__iadd__` for one key: bump if present, else append with count 1. -/
def incr (c : List (String × ℕ)) (k : String) : List (String × ℕ) :=
  if (c.lookup k).isSome then c.map (fun p => if p.1 = k then (p.1, p.2 + 1) else p)
  else c ++ [(k, 1)]

/-- The candidate counter loop of `get_fuzzy_match`: for each query gram,
`ngram_to_variant[gram]` (a `KeyError` — modelled as `Except.error` — when no
variant contains the gram), then one increment per candidate. -/
def buildCounterGo (keys : List String) :
    List (List Char) → List (String × ℕ) → Except Unit (List (String × ℕ))
  | [], c => .ok c
  | g :: rest, c =>
    match lookupCandidates keys g with
    | [] => .error ()
    | cs => buildCounterGo keys rest (cs.foldl incr c)

/-- The module-level variable `ngrams` left over from the index-construction
loop: the gram set of the last vocabulary variant (never read when the
vocabulary is empty, since the counter is empty then). -/
def staleNgrams (keys : List String) : Finset (List Char) :=
  (keys.getLast?).elim ∅ get_ngrams

/-- Python `max(d, key=d.get)` over an insertion-ordered list of entries:
the first entry attaining the maximal value. -/
def maxByVal : List (String × ℚ) → Option (String × ℚ)
  | [] => none
  | x :: xs => some (xs.foldl (fun best p => if best.2 < p.2 then p else best) x)

/-- The `candidate_to_jaccard` dict: the counter entries, each divided by
`len(ngrams.union(variant_to_ngrams[candidate]))` — note the source reads the
stale module-level `ngrams`, not `query_ngrams`. -/
def jaccardList (keys : List String) (counter : List (String × ℕ)) : List (String × ℚ) :=
  counter.map (fun p => (p.1, (p.2 : ℚ) / ((staleNgrams keys ∪ get_ngrams p.1).card : ℚ)))

/-- `get_fuzzy_match` from the source, parameterised by the vocabulary's
variant keys (in dict iteration order). -/
def get_fuzzy_match (keys : List String) (surface_form : String) :
    Except Unit (Option (String × ℚ)) :=
  match buildCounterGo keys (get_ngrams_list surface_form) [] with
  | .error e => .error e
  | .ok counter =>
    match maxByVal (jaccardList keys counter) with
    | none => .ok none
    | some (top, j) =>
      if max (get_ngrams surface_form \ get_ngrams top).card
          (get_ngrams top \ get_ngrams surface_form).card ≤ 3 then
        .ok (some (top, j))
      else .ok none

/-- The module-level state of `drugs_finder.py`: the three vocabulary
mappings loaded at import time and the lazily filled structure cache.
`drug_canonical_to_data` and `drug_variant_to_variant_data` are total
(the latter with the `.get(k, {})` default baked in). -/
structure ModuleState where
  drug_variant_to_canonical : List (String × List String)
  drug_canonical_to_data : String → Dict
  drug_variant_to_variant_data : String → Dict
  dbid_to_mol_lookup : Dict

/-- A returned match: `(match_data, start_token_index, end_token_index)`. -/
abbrev Mention := Dict × ℕ × ℕ

/-- The vocabulary's variant strings in dict iteration order. -/
def vocabKeys (s : ModuleState) : List String :=
  s.drug_variant_to_canonical.map Prod.fst

/-- `drug_variant_to_canonical.get(v, None)` followed by the `if match:`
truthiness test: `None` and `[]` both collapse to `[]`. -/
def canonicalsOf (s : ModuleState) (v : String) : List String :=
  (s.drug_variant_to_canonical.lookup v).getD []

/-- `dict(drug_canonical_to_data[m]) | drug_variant_to_variant_data.get(variant, {})`. -/
def exactMatchData (s : ModuleState) (m variant : String) : Dict :=
  dictUnion (s.drug_canonical_to_data m) (s.drug_variant_to_variant_data variant)

/-- The merged record of a fuzzy match, with the two annotation keys set. -/
def fuzzyMatchData (s : ModuleState) (m variant : String) (sim : ℚ) : Dict :=
  dictSet (dictSet (exactMatchData s m variant) "match_type" (Val.s "fuzzy"))
    "match_similarity" (Val.q sim)

/-- `(tokens[i] + " " + tokens[i + 1]).lower()`. -/
def bigramAt (tokens : List String) (i : ℕ) : String :=
  pyLower (tokens.getD i "" ++ " " ++ tokens.getD (i + 1) "")

/-- One iteration of the two-token loop of `find_drugs` at index `i`:
exact bigram match (which also excludes both indices), else the fuzzy
branch when enabled. -/
def pass1Step (s : ModuleState) (tokens : List String) (fz : Bool)
    (acc : List Mention × Finset ℕ) (i : ℕ) : Except Unit (List Mention × Finset ℕ) :=
  match canonicalsOf s (bigramAt tokens i) with
  | [] =>
    if fz then
      match get_fuzzy_match (vocabKeys s) (bigramAt tokens i) with
      | .error e => .error e
      | .ok none => .ok acc
      | .ok (some (v, sim)) =>
        .ok (acc.1 ++ (canonicalsOf s v).map (fun m => (fuzzyMatchData s m v sim, i, i + 1)),
             acc.2)
    else .ok acc
  | ids =>
    .ok (acc.1 ++ ids.map (fun m => (exactMatchData s m (bigramAt tokens i), i, i + 1)),
         insert (i + 1) (insert i acc.2))

/-- The two-token loop, left to right over the given index list. -/
def pass1Go (s : ModuleState) (tokens : List String) (fz : Bool) :
    List ℕ → List Mention × Finset ℕ → Except Unit (List Mention × Finset ℕ)
  | [], acc => .ok acc
  | i :: rest, acc =>
    match pass1Step s tokens fz acc i with
    | .error e => .error e
    | .ok acc1 => pass1Go s tokens fz rest acc1

/-- Pass 1 of `find_drugs`: `for token_idx, token in enumerate(tokens[:-1])`. -/
def pass1 (s : ModuleState) (tokens : List String) (fz : Bool) :
    Except Unit (List Mention × Finset ℕ) :=
  pass1Go s tokens fz (List.range (tokens.length - 1)) ([], ∅)

/-- One iteration of the single-token loop of `find_drugs` at index `i`:
skipped when `i` is excluded, else exact unigram match, else the fuzzy branch
(whose emitted span ends at `i + 1`, as in the source). -/
def pass2Step (s : ModuleState) (tokens : List String) (fz : Bool) (excl : Finset ℕ)
    (acc : List Mention) (i : ℕ) : Except Unit (List Mention) :=
  if i ∈ excl then .ok acc
  else
    match canonicalsOf s (pyLower (tokens.getD i "")) with
    | [] =>
      if fz then
        match get_fuzzy_match (vocabKeys s) (pyLower (tokens.getD i "")) with
        | .error e => .error e
        | .ok none => .ok acc
        | .ok (some (v, sim)) =>
          .ok (acc ++ (canonicalsOf s v).map (fun m => (fuzzyMatchData s m v sim, i, i + 1)))
      else .ok acc
    | ids =>
      .ok (acc ++ ids.map (fun m => (exactMatchData s m (pyLower (tokens.getD i "")), i, i)))

/-- The single-token loop, left to right over the given index list. -/
def pass2Go (s : ModuleState) (tokens : List String) (fz : Bool) (excl : Finset ℕ) :
    List ℕ → List Mention → Except Unit (List Mention)
  | [], acc => .ok acc
  | i :: rest, acc =>
    match pass2Step s tokens fz excl acc i with
    | .error e => .error e
    | .ok acc1 => pass2Go s tokens fz excl rest acc1

/-- Pass 2 of `find_drugs`: `for token_idx, token in enumerate(tokens)`. -/
def pass2 (s : ModuleState) (tokens : List String) (fz : Bool) (excl : Finset ℕ) :
    Except Unit (List Mention) :=
  pass2Go s tokens fz excl (List.range tokens.length) []

/-- Python `sub in l` on strings (substring containment). -/
def pyContains (sub l : String) : Bool :=
  decide (sub.toList <:+: l.toList)

/-- The structure-file parsing loop of `find_drugs` (lines of the
`open structures.sdf` file; the file itself is supplied by the external
Structure Provider collaborator). -/
def parseStructuresGo : List String → Bool → String → Dict → Dict
  | [], _, _, acc => acc
  | l :: rest, inStruct, cur, acc =>
    let cur1 := if inStruct && !(pyContains "DRUGBANK_ID" l) then cur ++ "\n" ++ l else cur
    if l.startsWith "DB" then
      parseStructuresGo rest false "" (dictSet acc l.trim (Val.s cur1))
    else
      parseStructuresGo rest inStruct cur1 acc

/-- The lazy one-time fill of `dbid_to_mol_lookup`: when the cache is empty,
set the `"downloading"` marker and parse the structure file. -/
def fillCache (cache : Dict) (fileLines : List String) : Dict :=
  if cache.isEmpty then
    parseStructuresGo fileLines true "" (dictSet [] "downloading" (Val.b true))
  else cache

/-- The structure-enrichment step applied to one metadata record: attach
`structure_mol` when the record carries a `drugbank_id` found in the cache. -/
def enrichDict (cache : Dict) (d : Dict) : Dict :=
  match d.lookup "drugbank_id" with
  | some (Val.s i) =>
    match cache.lookup i with
    | some v => dictSet d "structure_mol" v
    | none => d
  | _ => d

/-- Enrichment of a mention (spans untouched). -/
def enrichMention (cache : Dict) (p : Mention) : Mention :=
  (enrichDict cache p.1, p.2)

/-- The structure cache after the guarded fill at the start of `find_drugs`. -/
def cacheAfter (s : ModuleState) (structure_file_lines : List String)
    (is_include_structure : Bool) : Dict :=
  if is_include_structure then fillCache s.dbid_to_mol_lookup structure_file_lines
  else s.dbid_to_mol_lookup

/-- The final enrichment loop of `find_drugs` (applied only when structures
were requested). -/
def finalize (is_include_structure : Bool) (cache : Dict) (ms : List Mention) :
    List Mention :=
  if is_include_structure then ms.map (enrichMention cache) else ms

/-- `find_drugs` from the source: cache fill (when structures are requested),
pass 1 over bigrams, pass 2 over unigrams, then structure enrichment.
`is_ignore_case` is retained for backward compatibility and unused, as in the
source.  `structure_file_lines` stands for the contents of the external
structure file after the Structure Provider has ensured it exists. -/
def find_drugs (s : ModuleState) (structure_file_lines : List String)
    (tokens : List String) (is_fuzzy_match : Bool) (is_ignore_case : Option Bool)
    (is_include_structure : Bool) : Except Unit (List Mention × ModuleState) :=
  let _ := is_ignore_case
  match pass1 s tokens is_fuzzy_match with
  | .error e => .error e
  | .ok (ms1, excl) =>
    match pass2 s tokens is_fuzzy_match excl with
    | .error e => .error e
    | .ok ms2 =>
      .ok (finalize is_include_structure
             (cacheAfter s structure_file_lines is_include_structure) (ms1 ++ ms2),
           { s with dbid_to_mol_lookup :=
               cacheAfter s structure_file_lines is_include_structure })

/-! ## Supporting lemmas: the candidate counter of `get_fuzzy_match` -/

/-- Unfolding `get_fuzzy_match` on given intermediate results. -/
theorem get_fuzzy_match_eq_of (keys : List String) (q : String)
    (counter : List (String × ℕ)) (top : String) (j : ℚ)
    (hbc : buildCounterGo keys (get_ngrams_list q) [] = .ok counter)
    (hmax : maxByVal (jaccardList keys counter) = some (top, j))
    (hgate : max (get_ngrams q \ get_ngrams top).card
      (get_ngrams top \ get_ngrams q).card ≤ 3) :
    get_fuzzy_match keys q = .ok (some (top, j)) := by
  simp [get_fuzzy_match, hbc, hmax, hgate]

/-- A key reported absent by `lookup` heads no entry of the list. -/
theorem lookup_none_forall {β : Type} (c : List (String × β)) (k : String)
    (h : c.lookup k = none) : ∀ p ∈ c, p.1 ≠ k := by
  induction c with
  | nil => intro p hp; cases hp
  | cons q rest ih =>
    obtain ⟨k1, v1⟩ := q
    intro p hp
    rw [List.lookup_cons] at h
    cases hbeq : k == k1 with
    | true => rw [hbeq] at h; cases h
    | false =>
      rw [hbeq] at h
      have hne : k ≠ k1 := by
        intro he; rw [he] at hbeq; simp at hbeq
      rcases List.mem_cons.mp hp with he | hm
      · rw [he]; exact fun hc => hne hc.symm
      · exact ih h p hm

/-- Case analysis for membership in `incr c k`. -/
theorem incr_mem (c : List (String × ℕ)) (k : String) (p : String × ℕ)
    (hp : p ∈ incr c k) :
    (p ∈ c ∧ p.1 ≠ k) ∨ (∃ r ∈ c, r.1 = k ∧ p = (k, r.2 + 1)) ∨ p = (k, 1) := by
  unfold incr at hp
  by_cases hs : (c.lookup k).isSome
  · rw [if_pos hs] at hp
    obtain ⟨r, hr, he⟩ := List.mem_map.mp hp
    by_cases hrk : r.1 = k
    · rw [if_pos hrk] at he
      exact Or.inr (Or.inl ⟨r, hr, hrk, by rw [← he, hrk]⟩)
    · rw [if_neg hrk] at he
      exact Or.inl ⟨he ▸ hr, he ▸ hrk⟩
  · rw [if_neg hs] at hp
    rcases List.mem_append.mp hp with hm | hm
    · have hnone : c.lookup k = none := by
        cases hl : c.lookup k with
        | none => rfl
        | some v => rw [hl] at hs; simp at hs
      exact Or.inl ⟨hm, lookup_none_forall c k hnone p hm⟩
    · simp only [List.mem_singleton] at hm
      exact Or.inr (Or.inr hm)

/-- Effect of folding `incr` over a duplicate-free candidate list: every
entry of the result is an old entry, an old entry bumped once (its key being
a candidate), or a fresh entry with count 1. -/
theorem foldl_incr_mem (cs : List String) (hnd : cs.Nodup)
    (c : List (String × ℕ)) (p : String × ℕ) (hp : p ∈ cs.foldl incr c) :
    (∃ q ∈ c, q.1 = p.1 ∧ (p.2 = q.2 ∨ (p.2 = q.2 + 1 ∧ p.1 ∈ cs))) ∨
      (p.2 = 1 ∧ p.1 ∈ cs) := by
  induction cs generalizing c with
  | nil => exact Or.inl ⟨p, hp, rfl, Or.inl rfl⟩
  | cons k rest ih =>
    rw [List.foldl_cons] at hp
    have hknr : k ∉ rest := (List.nodup_cons.mp hnd).1
    rcases ih (List.nodup_cons.mp hnd).2 (incr c k) hp with ⟨q, hq, hqp, hcase⟩ | ⟨h1, hm⟩
    · rcases incr_mem c k q hq with ⟨hqc, hqk⟩ | ⟨r, hr, hrk, he⟩ | he
      · rcases hcase with he2 | ⟨he2, hm2⟩
        · exact Or.inl ⟨q, hqc, hqp, Or.inl he2⟩
        · exact Or.inl ⟨q, hqc, hqp, Or.inr ⟨he2, List.mem_cons_of_mem _ hm2⟩⟩
      · have hq1 : q.1 = k := by rw [he]
        have hq2 : q.2 = r.2 + 1 := by rw [he]
        rcases hcase with he2 | ⟨he2, hm2⟩
        · exact Or.inl ⟨r, hr, by rw [hrk, ← hq1]; exact hqp, Or.inr
            ⟨by rw [he2, hq2], by rw [← hqp, hq1]; exact List.mem_cons_self _ _⟩⟩
        · exact absurd (by rw [← hqp, hq1] at hm2; exact hm2) hknr
      · have hq1 : q.1 = k := by rw [he]
        have hq2 : q.2 = 1 := by rw [he]
        rcases hcase with he2 | ⟨he2, hm2⟩
        · exact Or.inr ⟨by rw [he2, hq2], by rw [← hqp, hq1]; exact List.mem_cons_self _ _⟩
        · exact absurd (by rw [← hqp, hq1] at hm2; exact hm2) hknr
    · exact Or.inr ⟨h1, List.mem_cons_of_mem _ hm⟩

/-- Invariant of the counter-building loop: every count is at least 1 and at
most the number of processed query grams the candidate contains. -/
theorem buildCounterGo_bound (keys : List String) (hk : keys.Nodup) :
    ∀ (gs done : List (List Char)) (c c' : List (String × ℕ)),
      buildCounterGo keys gs c = .ok c' →
      (∀ p ∈ c, 1 ≤ p.2 ∧
        p.2 ≤ (done.filter (fun g => decide (g ∈ get_ngrams p.1))).length) →
      ∀ p ∈ c', 1 ≤ p.2 ∧
        p.2 ≤ ((done ++ gs).filter (fun g => decide (g ∈ get_ngrams p.1))).length := by
  intro gs
  induction gs with
  | nil =>
    intro done c c' h hc p hp
    simp only [buildCounterGo] at h
    cases h
    simpa using hc p hp
  | cons g rest ih =>
    intro done c c' h hc
    cases hcs : lookupCandidates keys g with
    | nil =>
      simp only [buildCounterGo, hcs] at h
      exact Except.noConfusion h
    | cons k0 cs0 =>
      simp only [buildCounterGo, hcs] at h
      have hcsnd : (k0 :: cs0).Nodup := hcs ▸ List.Nodup.filter _ hk
      have hnew : ∀ p ∈ (k0 :: cs0).foldl incr c, 1 ≤ p.2 ∧
          p.2 ≤ ((done ++ [g]).filter (fun g => decide (g ∈ get_ngrams p.1))).length := by
        intro p hp
        have hlen : ∀ (k : String),
            ((done ++ [g]).filter (fun x => decide (x ∈ get_ngrams k))).length =
            (done.filter (fun x => decide (x ∈ get_ngrams k))).length +
              (if g ∈ get_ngrams k then 1 else 0) := by
          intro k
          rw [List.filter_append, List.length_append]
          congr 1
          by_cases hin : g ∈ get_ngrams k <;> simp [hin]
        have hgin : ∀ q ∈ (k0 :: cs0), g ∈ get_ngrams q := by
          intro q hq
          have := List.mem_filter.mp (hcs ▸ hq : q ∈ lookupCandidates keys g)
          exact of_decide_eq_true this.2
        rcases foldl_incr_mem (k0 :: cs0) hcsnd c p hp with
          ⟨q, hq, hqp, hcase⟩ | ⟨h1, hm⟩
        · obtain ⟨hq1, hq2⟩ := hc q hq
          rcases hcase with he | ⟨he, hm⟩
          · refine ⟨he ▸ hq1, ?_⟩
            rw [hlen p.1, ← hqp, he]
            omega
          · refine ⟨by omega, ?_⟩
            rw [hlen p.1, if_pos (hgin _ (hqp ▸ hm)), ← hqp]
            omega
        · refine ⟨by omega, ?_⟩
          rw [hlen p.1, if_pos (hgin _ hm), h1]
          omega
      have := ih (done ++ [g]) _ c' h hnew
      simpa [List.append_assoc] using this

/-- Every entry of the finished candidate counter has a count between 1 and
the size of the candidate's own 3-gram set. -/
theorem counter_entry_bound (keys : List String) (hk : keys.Nodup) (q : String)
    (c' : List (String × ℕ))
    (h : buildCounterGo keys (get_ngrams_list q) [] = .ok c') :
    ∀ p ∈ c', 1 ≤ p.2 ∧ p.2 ≤ (get_ngrams p.1).card := by
  intro p hp
  have hb := buildCounterGo_bound keys hk (get_ngrams_list q) [] [] c' h
    (by intro p hp; cases hp) p hp
  refine ⟨hb.1, le_trans hb.2 ?_⟩
  rw [List.nil_append] at hb ⊢
  have hnd : ((get_ngrams_list q).filter
      (fun g => decide (g ∈ get_ngrams p.1))).Nodup :=
    List.Nodup.filter _ (List.nodup_dedup _)
  rw [← List.toFinset_card_of_nodup hnd]
  apply Finset.card_le_card
  intro x hx
  have := List.mem_filter.mp (List.mem_toFinset.mp hx)
  exact of_decide_eq_true this.2

/-- `maxByVal` picks an element of its input list. -/
theorem foldl_pick_mem :
    ∀ (xs : List (String × ℚ)) (a : String × ℚ),
      xs.foldl (fun best p => if best.2 < p.2 then p else best) a ∈ a :: xs := by
  intro xs
  induction xs with
  | nil => intro a; simp
  | cons y ys ih =>
    intro a
    rw [List.foldl_cons]
    rcases List.mem_cons.mp (ih (if a.2 < y.2 then y else a)) with h | h
    · by_cases hc : a.2 < y.2
      · rw [h, if_pos hc]; exact List.mem_cons_of_mem _ (List.mem_cons_self _ _)
      · rw [h, if_neg hc]; exact List.mem_cons_self _ _
    · exact List.mem_cons_of_mem _ (List.mem_cons_of_mem _ h)

/-- Membership form of `maxByVal`. -/
theorem maxByVal_mem (l : List (String × ℚ)) (x : String × ℚ)
    (h : maxByVal l = some x) : x ∈ l := by
  cases l with
  | nil => cases h
  | cons a xs =>
    simp only [maxByVal, Option.some.injEq] at h
    exact h ▸ foldl_pick_mem xs a

/-! ## Claim theorems about `get_fuzzy_match` -/

/-- C1: `get_fuzzy_match` raises `KeyError` (modelled as `Except.error`) on a
query containing a 3-gram that occurs in no vocabulary variant, and on any
gram-bearing query when the vocabulary is empty — it does not return the
`(None, None)` sentinel there. -/
theorem get_fuzzy_match_raises_on_unknown_gram :
    get_fuzzy_match ["abcd"] "wxyz" = .error () ∧
      get_fuzzy_match [] "abc" = .error () := by
  constructor <;> decide

/-- C2: at vocabulary `["abcd", "wxyz"]` and query `"abcd"` the source
returns similarity 1/2, dividing by the union of the stale module-level
`ngrams` (the last variant's gram set) with the candidate's grams, whereas
the claimed Jaccard value — matching grams over |query grams ∪ candidate
grams| — is 1. -/
theorem get_fuzzy_match_stale_ngrams_bug :
    get_fuzzy_match ["abcd", "wxyz"] "abcd" = .ok (some ("abcd", 1/2)) ∧
      (((get_ngrams "abcd" ∩ get_ngrams "abcd").card : ℚ) /
        ((get_ngrams "abcd" ∪ get_ngrams "abcd").card : ℚ) = 1) ∧
      (1/2 : ℚ) ≠ 1 := by
  refine ⟨?_, ?_, by norm_num⟩
  · have hbc : buildCounterGo ["abcd", "wxyz"] (get_ngrams_list "abcd") [] =
        .ok [("abcd", 2)] := by decide
    have hcard : (staleNgrams ["abcd", "wxyz"] ∪ get_ngrams "abcd").card = 4 := by decide
    have hj : ((2 : ℕ) : ℚ) /
        ((staleNgrams ["abcd", "wxyz"] ∪ get_ngrams "abcd").card : ℚ) = 1/2 := by
      rw [hcard]; norm_num
    have hmax : maxByVal (jaccardList ["abcd", "wxyz"] [("abcd", 2)]) =
        some ("abcd", 1/2) := by
      simp only [jaccardList, List.map, maxByVal, List.foldl, hj]
    exact get_fuzzy_match_eq_of _ _ _ _ _ hbc hmax (by decide)
  · have h1 : (get_ngrams "abcd" ∩ get_ngrams "abcd").card = 2 := by decide
    have h2 : (get_ngrams "abcd" ∪ get_ngrams "abcd").card = 2 := by decide
    rw [h1, h2]; norm_num

/-- C3: whenever `get_fuzzy_match` accepts a match over a duplicate-free
vocabulary key list, the returned similarity lies in (0, 1], and both
one-sided 3-gram set differences between the query and the returned variant
are at most 3 (the acceptance gate). -/
theorem get_fuzzy_match_accept_bounds (keys : List String) (surface v : String)
    (sim : ℚ) (hnd : keys.Nodup)
    (h : get_fuzzy_match keys surface = .ok (some (v, sim))) :
    0 < sim ∧ sim ≤ 1 ∧ (get_ngrams surface \ get_ngrams v).card ≤ 3 ∧
      (get_ngrams v \ get_ngrams surface).card ≤ 3 := by
  cases hbc : buildCounterGo keys (get_ngrams_list surface) [] with
  | error e =>
    simp only [get_fuzzy_match, hbc] at h
    exact Except.noConfusion h
  | ok counter =>
    simp only [get_fuzzy_match, hbc] at h
    cases hmx : maxByVal (jaccardList keys counter) with
    | none =>
      simp only [hmx] at h
      simp at h
    | some tj =>
      obtain ⟨top, j⟩ := tj
      simp only [hmx] at h
      by_cases hg : max (get_ngrams surface \ get_ngrams top).card
          (get_ngrams top \ get_ngrams surface).card ≤ 3
      · rw [if_pos hg] at h
        have hpair : top = v ∧ j = sim := by
          simpa [Prod.ext_iff] using h
        obtain ⟨htv, hjs⟩ := hpair
        obtain ⟨p, hpmem, hpe⟩ := List.mem_map.mp (maxByVal_mem _ _ hmx)
        have hptop : p.1 = top := congrArg Prod.fst hpe
        have hjval : ((p.2 : ℚ) /
            ((staleNgrams keys ∪ get_ngrams p.1).card : ℚ)) = j :=
          congrArg Prod.snd hpe
        obtain ⟨hp1, hp2⟩ := counter_entry_bound keys hnd surface counter hbc p hpmem
        have hden : (get_ngrams p.1).card ≤ (staleNgrams keys ∪ get_ngrams p.1).card :=
          Finset.card_le_card Finset.subset_union_right
        have hdpos : 0 < ((staleNgrams keys ∪ get_ngrams p.1).card : ℚ) := by
          have : 1 ≤ (staleNgrams keys ∪ get_ngrams p.1).card := by omega
          exact_mod_cast Nat.lt_of_lt_of_le Nat.zero_lt_one this
        have hsim : sim = (p.2 : ℚ) /
            ((staleNgrams keys ∪ get_ngrams p.1).card : ℚ) := by
          rw [hjval, hjs]
        constructor
        · rw [hsim]
          apply div_pos _ hdpos
          exact_mod_cast hp1
        refine ⟨?_, ?_, ?_⟩
        · rw [hsim]
          rw [div_le_one hdpos]
          exact_mod_cast le_trans hp2 hden
        · rw [← htv]; exact le_trans (le_max_left _ _) hg
        · rw [← htv]; exact le_trans (le_max_right _ _) hg
      · rw [if_neg hg] at h
        simp at h

/-- Witness for C3 at vocabulary `["abcd"]` and query `"abc"`. -/
theorem get_fuzzy_match_accept_bounds_witness :
    (0 : ℚ) < 1/2 ∧ (1/2 : ℚ) ≤ 1 ∧
      (get_ngrams "abc" \ get_ngrams "abcd").card ≤ 3 ∧
      (get_ngrams "abcd" \ get_ngrams "abc").card ≤ 3 := by
  refine get_fuzzy_match_accept_bounds ["abcd"] "abc" "abcd" (1/2) (by decide) ?_
  have hbc : buildCounterGo ["abcd"] (get_ngrams_list "abc") [] = .ok [("abcd", 1)] := by
    decide
  have hcard : (staleNgrams ["abcd"] ∪ get_ngrams "abcd").card = 2 := by decide
  have hj : ((1 : ℕ) : ℚ) / ((staleNgrams ["abcd"] ∪ get_ngrams "abcd").card : ℚ) = 1/2 := by
    rw [hcard]; norm_num
  have hmax : maxByVal (jaccardList ["abcd"] [("abcd", 1)]) = some ("abcd", 1/2) := by
    simp only [jaccardList, List.map, maxByVal, List.foldl, hj]
  exact get_fuzzy_match_eq_of _ _ _ _ _ hbc hmax (by decide)

/-! ## Supporting lemmas: the two scanning passes of `find_drugs` -/

/-- A successful pass-1 step keeps every accumulated mention and exclusion. -/
theorem pass1Step_mono (s : ModuleState) (t : List String) (fz : Bool)
    (acc : List Mention × Finset ℕ) (i : ℕ) (acc1 : List Mention × Finset ℕ)
    (h : pass1Step s t fz acc i = .ok acc1) :
    (∀ x ∈ acc.1, x ∈ acc1.1) ∧ acc.2 ⊆ acc1.2 := by
  unfold pass1Step at h
  split at h
  · split at h
    · split at h
      · exact Except.noConfusion h
      · cases h; exact ⟨fun x hx => hx, fun a ha => ha⟩
      · cases h; exact ⟨fun x hx => List.mem_append_left _ hx, fun a ha => ha⟩
    · cases h; exact ⟨fun x hx => hx, fun a ha => ha⟩
  · cases h
    exact ⟨fun x hx => List.mem_append_left _ hx,
      fun a ha => Finset.mem_insert_of_mem (Finset.mem_insert_of_mem ha)⟩

/-- The pass-1 loop keeps every accumulated mention and exclusion. -/
theorem pass1Go_mono (s : ModuleState) (t : List String) (fz : Bool) :
    ∀ (l : List ℕ) (acc res : List Mention × Finset ℕ),
      pass1Go s t fz l acc = .ok res →
      (∀ x ∈ acc.1, x ∈ res.1) ∧ acc.2 ⊆ res.2 := by
  intro l
  induction l with
  | nil =>
    intro acc res h
    cases h
    exact ⟨fun x hx => hx, fun a ha => ha⟩
  | cons i rest ih =>
    intro acc res h
    simp only [pass1Go] at h
    cases hstep : pass1Step s t fz acc i with
    | error e => rw [hstep] at h; exact Except.noConfusion h
    | ok acc1 =>
      rw [hstep] at h
      have h1 := pass1Step_mono s t fz acc i acc1 hstep
      have h2 := ih acc1 res h
      exact ⟨fun x hx => h2.1 x (h1.1 x hx), h1.2.trans h2.2⟩

/-- When pass 1 reaches an index whose bigram has a truthy canonical list,
it emits the exact bigram mentions and excludes both spanned indices. -/
theorem pass1Go_exact_hit (s : ModuleState) (t : List String) (fz : Bool) :
    ∀ (l : List ℕ) (acc res : List Mention × Finset ℕ) (i : ℕ),
      pass1Go s t fz l acc = .ok res → i ∈ l →
      canonicalsOf s (bigramAt t i) ≠ [] →
      (∀ m ∈ canonicalsOf s (bigramAt t i),
        (exactMatchData s m (bigramAt t i), i, i + 1) ∈ res.1) ∧
      i ∈ res.2 ∧ (i + 1) ∈ res.2 := by
  intro l
  induction l with
  | nil => intro acc res i _ hmem; cases hmem
  | cons j rest ih =>
    intro acc res i h hmem hne
    simp only [pass1Go] at h
    cases hstep : pass1Step s t fz acc j with
    | error e => rw [hstep] at h; exact Except.noConfusion h
    | ok acc1 =>
      rw [hstep] at h
      rcases List.mem_cons.mp hmem with he | hm
      · subst he
        cases hc : canonicalsOf s (bigramAt t i) with
        | nil => exact absurd hc hne
        | cons m0 ms =>
          simp only [pass1Step, hc] at hstep
          cases hstep
          have hmono := pass1Go_mono s t fz rest _ res h
          refine ⟨?_, ?_, ?_⟩
          · intro m hmmem
            refine hmono.1 _ (List.mem_append_right _ ?_)
            exact List.mem_map.mpr ⟨m, hc ▸ hmmem, rfl⟩
          · exact hmono.2 (Finset.mem_insert_of_mem (Finset.mem_insert_self _ _))
          · exact hmono.2 (Finset.mem_insert_self _ _)
      · exact ih acc1 res i h hm hne

/-- With fuzzy matching disabled, every mention accumulated by pass 1 is a
bigram mention both of whose indices are excluded. -/
theorem pass1Go_shape_nofuzzy (s : ModuleState) (t : List String) :
    ∀ (l : List ℕ) (acc res : List Mention × Finset ℕ),
      pass1Go s t false l acc = .ok res →
      (∀ x ∈ acc.1, x.2.2 = x.2.1 + 1 ∧ x.2.1 ∈ acc.2 ∧ x.2.2 ∈ acc.2) →
      ∀ x ∈ res.1, x.2.2 = x.2.1 + 1 ∧ x.2.1 ∈ res.2 ∧ x.2.2 ∈ res.2 := by
  intro l
  induction l with
  | nil =>
    intro acc res h hinv
    cases h
    exact hinv
  | cons j rest ih =>
    intro acc res h hinv
    simp only [pass1Go] at h
    cases hstep : pass1Step s t false acc j with
    | error e => rw [hstep] at h; exact Except.noConfusion h
    | ok acc1 =>
      rw [hstep] at h
      refine ih acc1 res h ?_
      cases hc : canonicalsOf s (bigramAt t j) with
      | nil =>
        simp only [pass1Step, hc, Bool.false_eq_true, if_false] at hstep
        cases hstep
        exact hinv
      | cons m0 ms =>
        simp only [pass1Step, hc] at hstep
        cases hstep
        intro x hx
        rcases List.mem_append.mp hx with hold | hnew
        · obtain ⟨hsp, h1, h2⟩ := hinv x hold
          exact ⟨hsp, Finset.mem_insert_of_mem (Finset.mem_insert_of_mem h1),
            Finset.mem_insert_of_mem (Finset.mem_insert_of_mem h2)⟩
        · obtain ⟨m, _, he⟩ := List.mem_map.mp hnew
          subst he
          exact ⟨rfl, Finset.mem_insert_of_mem (Finset.mem_insert_self _ _),
            Finset.mem_insert_self _ _⟩

/-- The pass-2 loop keeps every accumulated mention. -/
theorem pass2Go_mono (s : ModuleState) (t : List String) (fz : Bool)
    (excl : Finset ℕ) :
    ∀ (l : List ℕ) (acc res : List Mention),
      pass2Go s t fz excl l acc = .ok res → ∀ x ∈ acc, x ∈ res := by
  intro l
  induction l with
  | nil => intro acc res h; cases h; exact fun x hx => hx
  | cons j rest ih =>
    intro acc res h
    simp only [pass2Go] at h
    cases hstep : pass2Step s t fz excl acc j with
    | error e => rw [hstep] at h; exact Except.noConfusion h
    | ok acc1 =>
      rw [hstep] at h
      have hsub : ∀ x ∈ acc, x ∈ acc1 := by
        unfold pass2Step at hstep
        split at hstep
        · cases hstep; exact fun x hx => hx
        · split at hstep
          · split at hstep
            · split at hstep
              · exact Except.noConfusion hstep
              · cases hstep; exact fun x hx => hx
              · cases hstep; exact fun x hx => List.mem_append_left _ hx
            · cases hstep; exact fun x hx => hx
          · cases hstep; exact fun x hx => List.mem_append_left _ hx
      exact fun x hx => ih acc1 res h x (hsub x hx)

/-- Every mention produced by the pass-2 loop (beyond the accumulator) starts
at a non-excluded index, and is a unigram span when fuzzy is disabled. -/
theorem pass2Go_new (s : ModuleState) (t : List String) (fz : Bool)
    (excl : Finset ℕ) :
    ∀ (l : List ℕ) (acc res : List Mention),
      pass2Go s t fz excl l acc = .ok res →
      ∀ x ∈ res, x ∈ acc ∨ (x.2.1 ∉ excl ∧ (fz = false → x.2.2 = x.2.1)) := by
  intro l
  induction l with
  | nil => intro acc res h x hx; cases h; exact Or.inl hx
  | cons j rest ih =>
    intro acc res h x hx
    simp only [pass2Go] at h
    cases hstep : pass2Step s t fz excl acc j with
    | error e => rw [hstep] at h; exact Except.noConfusion h
    | ok acc1 =>
      rw [hstep] at h
      rcases ih acc1 res h x hx with hx1 | hnew
      · unfold pass2Step at hstep
        split at hstep
        · cases hstep; exact Or.inl hx1
        · rename_i hnotexcl
          split at hstep
          · split at hstep
            · split at hstep
              · exact Except.noConfusion hstep
              · cases hstep; exact Or.inl hx1
              · cases hstep
                rcases List.mem_append.mp hx1 with hold | hnew2
                · exact Or.inl hold
                · obtain ⟨m, _, he⟩ := List.mem_map.mp hnew2
                  subst he
                  exact Or.inr ⟨hnotexcl, fun hfz => by subst hfz; simp_all⟩
            · cases hstep; exact Or.inl hx1
          · cases hstep
            rcases List.mem_append.mp hx1 with hold | hnew2
            · exact Or.inl hold
            · obtain ⟨m, _, he⟩ := List.mem_map.mp hnew2
              subst he
              exact Or.inr ⟨hnotexcl, fun _ => rfl⟩
      · exact Or.inr hnew

/-- When pass 2 reaches a non-excluded index whose token has a truthy
canonical list, it emits the exact unigram mentions at that index. -/
theorem pass2Go_exact_hit (s : ModuleState) (t : List String) (fz : Bool)
    (excl : Finset ℕ) :
    ∀ (l : List ℕ) (acc res : List Mention) (i : ℕ),
      pass2Go s t fz excl l acc = .ok res → i ∈ l → i ∉ excl →
      ∀ m ∈ canonicalsOf s (pyLower (t.getD i "")),
        (exactMatchData s m (pyLower (t.getD i "")), i, i) ∈ res := by
  intro l
  induction l with
  | nil => intro acc res i _ hmem; cases hmem
  | cons j rest ih =>
    intro acc res i h hmem hexcl m hm
    simp only [pass2Go] at h
    cases hstep : pass2Step s t fz excl acc j with
    | error e => rw [hstep] at h; exact Except.noConfusion h
    | ok acc1 =>
      rw [hstep] at h
      rcases List.mem_cons.mp hmem with he | hmem2
      · subst he
        cases hc : canonicalsOf s (pyLower (t.getD i "")) with
        | nil => rw [hc] at hm; cases hm
        | cons m0 ms =>
          simp only [pass2Step, hc, if_neg hexcl] at hstep
          cases hstep
          refine pass2Go_mono s t fz excl rest _ res h _ ?_
          exact List.mem_append_right _ (List.mem_map.mpr ⟨m, hc ▸ hm, rfl⟩)
      · exact ih acc1 res i h hmem2 hexcl m hm

/-- When pass 2 reaches a non-excluded index whose token has a falsy
canonical list and the fuzzy matcher accepts, it emits the fuzzy unigram
mentions spanning `(i, i + 1)`. -/
theorem pass2Go_fuzzy_hit (s : ModuleState) (t : List String) (excl : Finset ℕ) :
    ∀ (l : List ℕ) (acc res : List Mention) (i : ℕ) (v : String) (sim : ℚ),
      pass2Go s t true excl l acc = .ok res → i ∈ l → i ∉ excl →
      canonicalsOf s (pyLower (t.getD i "")) = [] →
      get_fuzzy_match (vocabKeys s) (pyLower (t.getD i "")) = .ok (some (v, sim)) →
      ∀ m ∈ canonicalsOf s v, (fuzzyMatchData s m v sim, i, i + 1) ∈ res := by
  intro l
  induction l with
  | nil => intro acc res i v sim _ hmem; cases hmem
  | cons j rest ih =>
    intro acc res i v sim h hmem hexcl hc hf m hm
    simp only [pass2Go] at h
    cases hstep : pass2Step s t true excl acc j with
    | error e => rw [hstep] at h; exact Except.noConfusion h
    | ok acc1 =>
      rw [hstep] at h
      rcases List.mem_cons.mp hmem with he | hmem2
      · subst he
        simp only [pass2Step, hc, if_neg hexcl, hf, if_pos rfl] at hstep
        cases hstep
        refine pass2Go_mono s t true excl rest _ res h _ ?_
        exact List.mem_append_right _ (List.mem_map.mpr ⟨m, hm, rfl⟩)
      · exact ih acc1 res i v sim h hmem2 hexcl hc hf m hm

/-! ## Supporting lemmas: composition and inversion of `find_drugs` -/

/-- `find_drugs` from successful pass results. -/
theorem find_drugs_eq (s : ModuleState) (lines t : List String) (fz : Bool)
    (ign : Option Bool) (incl : Bool) (ms1 : List Mention) (excl : Finset ℕ)
    (ms2 : List Mention)
    (h1 : pass1 s t fz = .ok (ms1, excl)) (h2 : pass2 s t fz excl = .ok ms2) :
    find_drugs s lines t fz ign incl =
      .ok (finalize incl (cacheAfter s lines incl) (ms1 ++ ms2),
        { s with dbid_to_mol_lookup := cacheAfter s lines incl }) := by
  simp only [find_drugs, h1, h2]

/-- Inversion of a successful `find_drugs` run into its pass results. -/
theorem find_drugs_ok_inv (s : ModuleState) (lines t : List String) (fz : Bool)
    (ign : Option Bool) (incl : Bool) (res : List Mention) (s' : ModuleState)
    (h : find_drugs s lines t fz ign incl = .ok (res, s')) :
    ∃ ms1 excl ms2, pass1 s t fz = .ok (ms1, excl) ∧ pass2 s t fz excl = .ok ms2 ∧
      res = finalize incl (cacheAfter s lines incl) (ms1 ++ ms2) ∧
      s' = { s with dbid_to_mol_lookup := cacheAfter s lines incl } := by
  unfold find_drugs at h
  cases hp1 : pass1 s t fz with
  | error e => simp only [hp1] at h; exact Except.noConfusion h
  | ok p =>
    obtain ⟨ms1, excl⟩ := p
    simp only [hp1] at h
    cases hp2 : pass2 s t fz excl with
    | error e => simp only [hp2] at h; exact Except.noConfusion h
    | ok ms2 =>
      simp only [hp2] at h
      injection h with h'
      injection h' with hres hs
      exact ⟨ms1, excl, ms2, rfl, hp2, hres.symm, hs.symm⟩

/-- Every finalized mention comes from a pass mention with the same span,
its record either untouched or enriched. -/
theorem finalize_mem_inv (incl : Bool) (cache : Dict) (ms : List Mention)
    (x : Mention) (hx : x ∈ finalize incl cache ms) :
    ∃ y ∈ ms, x.2 = y.2 ∧ (x.1 = y.1 ∨ x.1 = enrichDict cache y.1) := by
  unfold finalize at hx
  cases incl with
  | false => exact ⟨x, hx, rfl, Or.inl rfl⟩
  | true =>
    obtain ⟨y, hy, he⟩ := List.mem_map.mp hx
    exact ⟨y, hy, by rw [← he]; rfl, Or.inr (by rw [← he]; rfl)⟩

/-- Every pass mention survives finalization with its span intact. -/
theorem finalize_mem_of (incl : Bool) (cache : Dict) (ms : List Mention)
    (y : Mention) (hy : y ∈ ms) :
    ∃ d, (d, y.2) ∈ finalize incl cache ms := by
  unfold finalize
  cases incl with
  | false => exact ⟨y.1, hy⟩
  | true => exact ⟨enrichDict cache y.1, List.mem_map.mpr ⟨y, hy, rfl⟩⟩

/-! ## Claim theorems about the scanning passes -/

/-- Vocabulary refuting C4: the bigram variant `"a b"` maps to an empty
canonical list (truthiness makes `if match:` skip it without excluding). -/
def sC4 : ModuleState :=
  { drug_variant_to_canonical := [("a b", []), ("a", ["c2"])],
    drug_canonical_to_data := fun _ => [],
    drug_variant_to_variant_data := fun _ => [],
    dbid_to_mol_lookup := [] }

/-- C4 counterexample: `"a b"` is a vocabulary variant for the adjacent pair
(0, 1) of `["a", "b"]`, yet index 0 still produces a pass-2 unigram mention,
because the empty canonical list is falsy and the pair is neither emitted nor
excluded. -/
theorem find_drugs_bigram_exclusion_cex :
    sC4.drug_variant_to_canonical.lookup "a b" = some [] ∧
      find_drugs sC4 [] ["a", "b"] false none false =
        .ok ([(([] : Dict), 0, 0)], sC4) := by
  exact ⟨rfl, rfl⟩

/-- C4 (amended): for every adjacent pair whose joined lower-cased form maps
to a non-empty canonical list, pass 1 emits one exact bigram mention per
canonical id, both indices are excluded, no pass-2 mention arises from either
index, and the final result keeps a mention spanning (i, i + 1) per id. -/
theorem find_drugs_exact_bigram_mentions (s : ModuleState) (lines t : List String)
    (fz : Bool) (ign : Option Bool) (incl : Bool) (i : ℕ) (ms1 : List Mention)
    (excl : Finset ℕ) (ms2 res : List Mention) (s' : ModuleState)
    (hi : i + 1 < t.length)
    (hne : canonicalsOf s (bigramAt t i) ≠ [])
    (h1 : pass1 s t fz = .ok (ms1, excl))
    (h2 : pass2 s t fz excl = .ok ms2)
    (h : find_drugs s lines t fz ign incl = .ok (res, s')) :
    (∀ m ∈ canonicalsOf s (bigramAt t i),
        (exactMatchData s m (bigramAt t i), i, i + 1) ∈ ms1) ∧
      i ∈ excl ∧ (i + 1) ∈ excl ∧
      (∀ x ∈ ms2, x.2.1 ≠ i ∧ x.2.1 ≠ i + 1) ∧
      (∀ m ∈ canonicalsOf s (bigramAt t i), ∃ d, (d, i, i + 1) ∈ res) := by
  have hmem : i ∈ List.range (t.length - 1) := List.mem_range.mpr (by omega)
  have hhit := pass1Go_exact_hit s t fz (List.range (t.length - 1)) ([], ∅)
    (ms1, excl) i h1 hmem hne
  obtain ⟨hms1, hiexcl, hi1excl⟩ := hhit
  have hres : res = finalize incl (cacheAfter s lines incl) (ms1 ++ ms2) := by
    rw [find_drugs_eq s lines t fz ign incl ms1 excl ms2 h1 h2] at h
    injection h with h'
    exact (congrArg Prod.fst h').symm
  refine ⟨hms1, hiexcl, hi1excl, ?_, ?_⟩
  · intro x hx
    rcases pass2Go_new s t fz excl (List.range t.length) [] ms2 h2 x hx with
      hx0 | ⟨hnot, _⟩
    · cases hx0
    · exact ⟨fun he => hnot (he ▸ hiexcl), fun he => hnot (he ▸ hi1excl)⟩
  · intro m hm
    obtain ⟨d, hd⟩ := finalize_mem_of incl (cacheAfter s lines incl) (ms1 ++ ms2)
      (exactMatchData s m (bigramAt t i), i, i + 1)
      (List.mem_append_left _ (hms1 m hm))
    exact ⟨d, hres ▸ hd⟩

/-- Vocabulary for the C4 witness. -/
def sW4 : ModuleState :=
  { drug_variant_to_canonical := [("a b", ["c"])],
    drug_canonical_to_data := fun _ => [],
    drug_variant_to_variant_data := fun _ => [],
    dbid_to_mol_lookup := [] }

/-- Witness for the amended C4 at vocabulary `{"a b": ["c"]}` and tokens
`["a", "b"]`. -/
theorem find_drugs_exact_bigram_mentions_witness :
    (∀ m ∈ canonicalsOf sW4 (bigramAt ["a", "b"] 0),
        (exactMatchData sW4 m (bigramAt ["a", "b"] 0), 0, 1) ∈
          [((([] : Dict)), 0, 1)]) ∧
      0 ∈ (insert 1 (insert 0 (∅ : Finset ℕ))) ∧
      1 ∈ (insert 1 (insert 0 (∅ : Finset ℕ))) ∧
      (∀ x ∈ ([] : List Mention), x.2.1 ≠ 0 ∧ x.2.1 ≠ 1) ∧
      (∀ m ∈ canonicalsOf sW4 (bigramAt ["a", "b"] 0),
        ∃ d, (d, 0, 1) ∈ [((([] : Dict)), 0, 1)]) :=
  find_drugs_exact_bigram_mentions sW4 [] ["a", "b"] false none false 0
    [((([] : Dict)), 0, 1)] (insert 1 (insert 0 ∅)) [] [((([] : Dict)), 0, 1)] sW4
    (by decide) (by decide) (by decide) (by decide) rfl

/-- Vocabulary refuting C5: two adjacent bigram variants. -/
def sC5 : ModuleState :=
  { drug_variant_to_canonical := [("a b", ["c"]), ("b c", ["c"])],
    drug_canonical_to_data := fun _ => [],
    drug_variant_to_variant_data := fun _ => [],
    dbid_to_mol_lookup := [] }

/-- C5 counterexample: on `["a", "b", "c"]` the pass-1 loop emits the two
exact bigram mentions (0, 1) and (1, 2); token index 1 lies in both spans,
so span-disjointness of distinct mentions fails. -/
theorem find_drugs_overlap_cex :
    find_drugs sC5 [] ["a", "b", "c"] false none false =
      .ok ([(([] : Dict), 0, 1), (([] : Dict), 1, 2)], sC5) ∧
      ((([] : Dict), 0, 1) : Mention) ≠ ((([] : Dict), 1, 2) : Mention) ∧
      (0 ≤ 1 ∧ 1 ≤ 1) ∧ (1 ≤ 1 ∧ 1 ≤ 2) := by
  exact ⟨rfl, by decide, by omega, by omega⟩

/-- C5 (amended): with fuzzy matching disabled, no unigram mention's index
lies inside any bigram mention's span (bigram-bigram overlaps remain
possible, as the counterexample shows). -/
theorem find_drugs_nofuzzy_overlap_free (s : ModuleState) (lines t : List String)
    (ign : Option Bool) (incl : Bool) (res : List Mention) (s' : ModuleState)
    (d1 : Dict) (i : ℕ) (d2 : Dict) (j : ℕ)
    (h : find_drugs s lines t false ign incl = .ok (res, s'))
    (hb : (d1, i, i + 1) ∈ res) (hu : (d2, j, j) ∈ res) :
    j ≠ i ∧ j ≠ i + 1 := by
  obtain ⟨ms1, excl, ms2, hp1, hp2, hres, _⟩ :=
    find_drugs_ok_inv s lines t false ign incl res s' h
  subst hres
  obtain ⟨y1, hy1, hsp1, _⟩ := finalize_mem_inv _ _ _ _ hb
  obtain ⟨y2, hy2, hsp2, _⟩ := finalize_mem_inv _ _ _ _ hu
  have hiexcl : i ∈ excl ∧ i + 1 ∈ excl := by
    rcases List.mem_append.mp hy1 with h1m | h1m
    · have hsh := pass1Go_shape_nofuzzy s t (List.range (t.length - 1)) ([], ∅)
        (ms1, excl) hp1 (by intro x hx; cases hx) y1 h1m
      rw [← hsp1] at hsh
      exact ⟨hsh.2.1, hsh.2.2⟩
    · rcases pass2Go_new s t false excl (List.range t.length) [] ms2 hp2 y1 h1m with
        hx0 | ⟨_, hspan⟩
      · cases hx0
      · rw [← hsp1] at hspan
        exact absurd (hspan rfl) (by simp)
  have hjnot : j ∉ excl := by
    rcases List.mem_append.mp hy2 with h2m | h2m
    · have hsh := pass1Go_shape_nofuzzy s t (List.range (t.length - 1)) ([], ∅)
        (ms1, excl) hp1 (by intro x hx; cases hx) y2 h2m
      rw [← hsp2] at hsh
      exact absurd hsh.1 (by simp)
    · rcases pass2Go_new s t false excl (List.range t.length) [] ms2 hp2 y2 h2m with
        hx0 | ⟨hnot, _⟩
      · cases hx0
      · rw [← hsp2] at hnot
        exact hnot
  exact ⟨fun he => hjnot (he ▸ hiexcl.1), fun he => hjnot (he ▸ hiexcl.2)⟩

/-- Vocabulary for the C5 witness. -/
def sW5 : ModuleState :=
  { drug_variant_to_canonical := [("a b", ["c"]), ("c", ["k"])],
    drug_canonical_to_data := fun _ => [],
    drug_variant_to_variant_data := fun _ => [],
    dbid_to_mol_lookup := [] }

/-- Witness for the amended C5: a bigram mention (0, 1) and a unigram
mention at 2 coexist, and 2 avoids both spanned indices. -/
theorem find_drugs_nofuzzy_overlap_free_witness :
    find_drugs sW5 [] ["a", "b", "c"] false none false =
      .ok ([(([] : Dict), 0, 1), (([] : Dict), 2, 2)], sW5) ∧
      ((2 : ℕ) ≠ 0 ∧ (2 : ℕ) ≠ 1) :=
  ⟨rfl, find_drugs_nofuzzy_overlap_free sW5 [] ["a", "b", "c"] none false
    [(([] : Dict), 0, 1), (([] : Dict), 2, 2)] sW5 [] 0 [] 2 rfl
    (by decide) (by decide)⟩

/-- Vocabulary refuting C6: the token `"a"` is a variant, but so is the
bigram `"a b"`, whose exact match excludes index 0 from pass 2. -/
def sC6 : ModuleState :=
  { drug_variant_to_canonical := [("a b", ["c1"]), ("a", ["c2"])],
    drug_canonical_to_data := fun _ => [],
    drug_variant_to_variant_data := fun _ => [],
    dbid_to_mol_lookup := [] }

/-- C6 counterexample: `"a"` is a vocabulary variant with canonical `c2`,
yet `find_drugs` on `["a", "b"]` with fuzzy disabled returns no unigram
mention spanning (0, 0): index 0 was excluded by the exact bigram match. -/
theorem find_drugs_unigram_cex :
    sC6.drug_variant_to_canonical.lookup "a" = some ["c2"] ∧
      find_drugs sC6 [] ["a", "b"] false none false =
        .ok ([(([] : Dict), 0, 1)], sC6) ∧
      ((exactMatchData sC6 "c2" "a", 0, 0) : Mention) ∉
        [(((([] : Dict)), 0, 1) : Mention)] := by
  exact ⟨rfl, rfl, by decide⟩

/-- C6 (amended): with fuzzy disabled, every token index that pass 1 did not
exclude and whose lower-cased form maps to canonical ids yields one unigram
mention per canonical id in the final result. -/
theorem find_drugs_nofuzzy_unigram_mentions (s : ModuleState) (lines t : List String)
    (ign : Option Bool) (i : ℕ) (ms1 : List Mention) (excl : Finset ℕ)
    (ms2 res : List Mention) (s' : ModuleState)
    (hi : i < t.length) (hexcl : i ∉ excl)
    (h1 : pass1 s t false = .ok (ms1, excl))
    (h2 : pass2 s t false excl = .ok ms2)
    (h : find_drugs s lines t false ign false = .ok (res, s')) :
    ∀ m ∈ canonicalsOf s (pyLower (t.getD i "")),
      (exactMatchData s m (pyLower (t.getD i "")), i, i) ∈ res := by
  intro m hm
  have hmem : i ∈ List.range t.length := List.mem_range.mpr hi
  have hhit := pass2Go_exact_hit s t false excl (List.range t.length) [] ms2 i
    h2 hmem hexcl m hm
  have hres : res = ms1 ++ ms2 := by
    rw [find_drugs_eq s lines t false ign false ms1 excl ms2 h1 h2] at h
    injection h with h'
    have h'' := congrArg Prod.fst h'
    simpa [finalize] using h''.symm
  rw [hres]
  exact List.mem_append_right _ hhit

/-- Vocabulary for the C6 witness. -/
def sW6 : ModuleState :=
  { drug_variant_to_canonical := [("a", ["c"])],
    drug_canonical_to_data := fun _ => [],
    drug_variant_to_variant_data := fun _ => [],
    dbid_to_mol_lookup := [] }

/-- Witness for the amended C6 at vocabulary `{"a": ["c"]}` and tokens
`["a"]`. -/
theorem find_drugs_nofuzzy_unigram_mentions_witness :
    (exactMatchData sW6 "c" (pyLower (["a"].getD 0 "")), 0, 0) ∈
      [(((([] : Dict)), 0, 0) : Mention)] :=
  find_drugs_nofuzzy_unigram_mentions sW6 [] ["a"] none 0 [] ∅
    [(([] : Dict), 0, 0)] [(([] : Dict), 0, 0)] sW6
    (by decide) (by decide) (by decide) (by decide) rfl "c" (by decide)

/-! ## Degenerate inputs (C7) -/

/-- A query shorter than 3 characters has no grams, so the fuzzy matcher
returns the sentinel without touching the index. -/
theorem get_fuzzy_match_short (keys : List String) (q : String)
    (hq : q.length ≤ 2) : get_fuzzy_match keys q = .ok none := by
  have h0 : q.length - 2 = 0 := by omega
  have hg : get_ngrams_list q = [] := by
    simp [get_ngrams_list, h0]
  simp [get_fuzzy_match, hg, buildCounterGo, jaccardList, maxByVal]

/-- Indexing an all-empty token list always yields the empty token. -/
theorem getD_replicate_blank (n i : ℕ) :
    (List.replicate n ("" : String)).getD i "" = "" := by
  induction n generalizing i with
  | zero => simp
  | succ k ih =>
    cases i with
    | zero => simp [List.replicate]
    | succ j => simp [List.replicate, ih j]

/-- Every bigram candidate over all-empty tokens is the single space. -/
theorem bigramAt_blank (n i : ℕ) : bigramAt (List.replicate n "") i = " " := by
  unfold bigramAt
  rw [getD_replicate_blank, getD_replicate_blank]
  decide

/-- Pass-1 steps are no-ops over all-empty tokens whose joined form misses. -/
theorem pass1Step_blank (s : ModuleState) (n : ℕ) (fz : Bool)
    (acc : List Mention × Finset ℕ) (i : ℕ)
    (hsp : s.drug_variant_to_canonical.lookup " " = none) :
    pass1Step s (List.replicate n "") fz acc i = .ok acc := by
  have hb := bigramAt_blank n i
  have hc : canonicalsOf s " " = [] := by simp [canonicalsOf, hsp]
  have hf : get_fuzzy_match (vocabKeys s) " " = .ok none :=
    get_fuzzy_match_short _ _ (by decide)
  simp [pass1Step, hb, hc, hf]

/-- Pass-2 steps are no-ops over all-empty tokens whose empty form misses. -/
theorem pass2Step_blank (s : ModuleState) (n : ℕ) (fz : Bool)
    (acc : List Mention) (i : ℕ)
    (hsp0 : s.drug_variant_to_canonical.lookup "" = none) :
    pass2Step s (List.replicate n "") fz ∅ acc i = .ok acc := by
  have hg : pyLower ((List.replicate n ("" : String)).getD i "") = "" := by
    rw [getD_replicate_blank]; decide
  have hpy : pyLower "" = "" := by decide
  have hc : canonicalsOf s "" = [] := by simp [canonicalsOf, hsp0]
  have hf : get_fuzzy_match (vocabKeys s) "" = .ok none :=
    get_fuzzy_match_short _ _ (by decide)
  simp [pass2Step, hg, hpy, hc, hf]

/-- A loop all of whose steps are no-ops returns its accumulator. -/
theorem pass1Go_const (s : ModuleState) (t : List String) (fz : Bool)
    (hstep : ∀ acc i, pass1Step s t fz acc i = .ok acc) :
    ∀ (l : List ℕ) (acc), pass1Go s t fz l acc = .ok acc := by
  intro l
  induction l with
  | nil => intro acc; rfl
  | cons i rest ih => intro acc; simp [pass1Go, hstep, ih]

/-- A pass-2 loop all of whose steps are no-ops returns its accumulator. -/
theorem pass2Go_const (s : ModuleState) (t : List String) (fz : Bool)
    (excl : Finset ℕ) (hstep : ∀ acc i, pass2Step s t fz excl acc i = .ok acc) :
    ∀ (l : List ℕ) (acc), pass2Go s t fz excl l acc = .ok acc := by
  intro l
  induction l with
  | nil => intro acc; rfl
  | cons i rest ih => intro acc; simp [pass2Go, hstep, ih]

/-- C7: `find_drugs` on the empty token sequence, and on any sequence of
zero-length tokens matching nothing, returns the empty mention list and
never raises, for every flag setting. -/
theorem find_drugs_degenerate (s : ModuleState) (lines : List String) (fz : Bool)
    (ign : Option Bool) (incl : Bool) :
    find_drugs s lines [] fz ign incl =
      .ok ([], { s with dbid_to_mol_lookup := cacheAfter s lines incl }) ∧
    (s.drug_variant_to_canonical.lookup " " = none →
      s.drug_variant_to_canonical.lookup "" = none →
      ∀ n, find_drugs s lines (List.replicate n "") fz ign incl =
        .ok ([], { s with dbid_to_mol_lookup := cacheAfter s lines incl })) := by
  constructor
  · have h1 : pass1 s [] fz = .ok ([], ∅) := rfl
    have h2 : pass2 s [] fz ∅ = .ok [] := rfl
    rw [find_drugs_eq s lines [] fz ign incl [] ∅ [] h1 h2]
    cases incl <;> simp [finalize]
  · intro hsp hsp0 n
    have h1 : pass1 s (List.replicate n "") fz = .ok ([], ∅) :=
      pass1Go_const s _ fz (fun acc i => pass1Step_blank s n fz acc i hsp) _ ([], ∅)
    have h2 : pass2 s (List.replicate n "") fz ∅ = .ok [] :=
      pass2Go_const s _ fz ∅ (fun acc i => pass2Step_blank s n fz acc i hsp0) _ []
    rw [find_drugs_eq s lines (List.replicate n "") fz ign incl [] ∅ [] h1 h2]
    cases incl <;> simp [finalize]

/-- Empty vocabulary for the C7 witness. -/
def sW7 : ModuleState :=
  { drug_variant_to_canonical := [],
    drug_canonical_to_data := fun _ => [],
    drug_variant_to_variant_data := fun _ => [],
    dbid_to_mol_lookup := [] }

/-- Witness for C7: empty tokens and two zero-length tokens, fuzzy enabled,
over the empty vocabulary. -/
theorem find_drugs_degenerate_witness :
    find_drugs sW7 [] [] true none false = .ok ([], sW7) ∧
      find_drugs sW7 [] (List.replicate 2 "") true none false = .ok ([], sW7) :=
  ⟨(find_drugs_degenerate sW7 [] true none false).1,
    (find_drugs_degenerate sW7 [] true none false).2 rfl rfl 2⟩

/-! ## Idempotence across calls (C8) -/

/-- `d[k] = v` never empties a dict. -/
theorem dictSet_ne_nil (d : Dict) (k : String) (v : Val) : dictSet d k v ≠ [] := by
  unfold dictSet
  split
  · rename_i hs
    intro he
    rw [List.map_eq_nil_iff] at he
    subst he
    simp [List.lookup] at hs
  · simp

/-- The structure parsing loop never empties its accumulator. -/
theorem parseStructuresGo_ne_nil :
    ∀ (lines : List String) (b : Bool) (cur : String) (acc : Dict),
      acc ≠ [] → parseStructuresGo lines b cur acc ≠ [] := by
  intro lines
  induction lines with
  | nil => intro b cur acc h; simpa [parseStructuresGo] using h
  | cons l rest ih =>
    intro b cur acc h
    simp only [parseStructuresGo]
    split
    · exact ih _ _ _ (dictSet_ne_nil _ _ _)
    · exact ih _ _ _ h

/-- The filled structure cache is never empty (the `"downloading"` marker is
always present). -/
theorem fillCache_ne_nil (c : Dict) (lines : List String) :
    fillCache c lines ≠ [] := by
  unfold fillCache
  split
  · exact parseStructuresGo_ne_nil _ _ _ _ (dictSet_ne_nil _ _ _)
  · rename_i hne
    intro he
    subst he
    simp at hne

/-- Filling an already filled cache is a no-op. -/
theorem fillCache_stable (c : Dict) (lines : List String) :
    fillCache (fillCache c lines) lines = fillCache c lines := by
  cases hfc : fillCache c lines with
  | nil => exact absurd hfc (fillCache_ne_nil c lines)
  | cons a as => simp [fillCache]

/-- The cache computed on the state left by a first call is unchanged. -/
theorem cacheAfter_stable (s : ModuleState) (lines : List String) (incl : Bool) :
    cacheAfter { s with dbid_to_mol_lookup := cacheAfter s lines incl } lines incl =
      cacheAfter s lines incl := by
  cases incl with
  | false => rfl
  | true => simp [cacheAfter, fillCache_stable]

/-- Pass 1 never reads the structure cache. -/
theorem pass1Go_cache (s : ModuleState) (c : Dict) (t : List String) (fz : Bool) :
    ∀ (l : List ℕ) (acc), pass1Go { s with dbid_to_mol_lookup := c } t fz l acc =
      pass1Go s t fz l acc := by
  intro l
  induction l with
  | nil => intro acc; rfl
  | cons i rest ih =>
    intro acc
    have hstep : pass1Step { s with dbid_to_mol_lookup := c } t fz acc i =
        pass1Step s t fz acc i := rfl
    simp only [pass1Go, hstep]
    cases pass1Step s t fz acc i with
    | error e => rfl
    | ok acc1 => exact ih acc1

/-- Pass 2 never reads the structure cache. -/
theorem pass2Go_cache (s : ModuleState) (c : Dict) (t : List String) (fz : Bool)
    (excl : Finset ℕ) :
    ∀ (l : List ℕ) (acc), pass2Go { s with dbid_to_mol_lookup := c } t fz excl l acc =
      pass2Go s t fz excl l acc := by
  intro l
  induction l with
  | nil => intro acc; rfl
  | cons i rest ih =>
    intro acc
    have hstep : pass2Step { s with dbid_to_mol_lookup := c } t fz excl acc i =
        pass2Step s t fz excl acc i := rfl
    simp only [pass2Go, hstep]
    cases pass2Step s t fz excl acc i with
    | error e => rfl
    | ok acc1 => exact ih acc1

/-- C8: a second `find_drugs` call with identical arguments, run on the
module state left by the first call, returns the identical result and leaves
the state unchanged — the only cross-call state, the structure cache, is
filled at most once. -/
theorem find_drugs_idempotent (s : ModuleState) (lines t : List String)
    (fz : Bool) (ign : Option Bool) (incl : Bool) (r : List Mention)
    (s1 : ModuleState)
    (h : find_drugs s lines t fz ign incl = .ok (r, s1)) :
    find_drugs s1 lines t fz ign incl = .ok (r, s1) := by
  obtain ⟨ms1, excl, ms2, hp1, hp2, hr, hs1⟩ :=
    find_drugs_ok_inv s lines t fz ign incl r s1 h
  subst hr hs1
  have hp1' : pass1 { s with dbid_to_mol_lookup := cacheAfter s lines incl } t fz =
      .ok (ms1, excl) := by
    have := pass1Go_cache s (cacheAfter s lines incl) t fz
      (List.range (t.length - 1)) ([], ∅)
    exact this.trans hp1
  have hp2' : pass2 { s with dbid_to_mol_lookup := cacheAfter s lines incl } t fz excl =
      .ok ms2 := by
    have := pass2Go_cache s (cacheAfter s lines incl) t fz excl
      (List.range t.length) []
    exact this.trans hp2
  rw [find_drugs_eq _ lines t fz ign incl ms1 excl ms2 hp1' hp2']
  rw [cacheAfter_stable]

/-- Empty vocabulary for the C8 witness. -/
def sW8 : ModuleState :=
  { drug_variant_to_canonical := [],
    drug_canonical_to_data := fun _ => [],
    drug_variant_to_variant_data := fun _ => [],
    dbid_to_mol_lookup := [] }

/-- Witness for C8: the second call on the state left by the first call
reproduces the first call's output. -/
theorem find_drugs_idempotent_witness :
    find_drugs sW8 [] ["x"] false none false = .ok ([], sW8) :=
  find_drugs_idempotent sW8 [] ["x"] false none false [] sW8 rfl

/-! ## Fresh merged metadata records (C9) -/

/-- A sequence of Python key assignments applied to a dict. -/
def dictSets (d : Dict) (extras : List (String × Val)) : Dict :=
  extras.foldl (fun acc p => dictSet acc p.1 p.2) d

/-- A metadata record of the form the source builds: the canonical record
overlaid (`dict(...) | ...`) by the variant override record, followed only by
match-annotation or structure key assignments. -/
def MergedShape (s : ModuleState) (d : Dict) : Prop :=
  ∃ m v extras,
    (∀ e ∈ extras, e.1 = "match_type" ∨ e.1 = "match_similarity" ∨
      e.1 = "structure_mol") ∧
    d = dictSets (dictUnion (s.drug_canonical_to_data m)
      (s.drug_variant_to_variant_data v)) extras

/-- Exact-match records have the merged shape. -/
theorem mergedShape_exact (s : ModuleState) (m v : String) :
    MergedShape s (exactMatchData s m v) :=
  ⟨m, v, [], ⟨fun e he => absurd he (List.not_mem_nil e), rfl⟩⟩

/-- Fuzzy-match records have the merged shape. -/
theorem mergedShape_fuzzy (s : ModuleState) (m v : String) (sim : ℚ) :
    MergedShape s (fuzzyMatchData s m v sim) := by
  refine ⟨m, v, [("match_type", Val.s "fuzzy"), ("match_similarity", Val.q sim)],
    ?_, rfl⟩
  intro e he
  rcases List.mem_cons.mp he with he1 | he2
  · exact Or.inl (by rw [he1])
  · rcases List.mem_cons.mp he2 with he3 | he4
    · exact Or.inr (Or.inl (by rw [he3]))
    · cases he4

/-- Structure enrichment preserves the merged shape. -/
theorem mergedShape_enrich (s : ModuleState) (cache : Dict) (d : Dict)
    (h : MergedShape s d) : MergedShape s (enrichDict cache d) := by
  obtain ⟨m, v, extras, hk, hd⟩ := h
  unfold enrichDict
  split
  · split
    · rename_i val hv
      refine ⟨m, v, extras ++ [("structure_mol", val)], ?_, ?_⟩
      · intro e he
        rcases List.mem_append.mp he with h1 | h2
        · exact hk e h1
        · simp only [List.mem_singleton] at h2
          exact Or.inr (Or.inr (by rw [h2]))
      · rw [hd, dictSets, dictSets, List.foldl_append]
        rfl
    · exact ⟨m, v, extras, hk, hd⟩
  · exact ⟨m, v, extras, hk, hd⟩

/-- Every mention accumulated by pass 1 has merged-shape metadata. -/
theorem pass1Go_merged (s : ModuleState) (t : List String) (fz : Bool) :
    ∀ (l : List ℕ) (acc res : List Mention × Finset ℕ),
      pass1Go s t fz l acc = .ok res →
      (∀ x ∈ acc.1, MergedShape s x.1) → ∀ x ∈ res.1, MergedShape s x.1 := by
  intro l
  induction l with
  | nil => intro acc res h hinv; cases h; exact hinv
  | cons j rest ih =>
    intro acc res h hinv
    simp only [pass1Go] at h
    cases hstep : pass1Step s t fz acc j with
    | error e => rw [hstep] at h; exact Except.noConfusion h
    | ok acc1 =>
      rw [hstep] at h
      refine ih acc1 res h ?_
      unfold pass1Step at hstep
      split at hstep
      · split at hstep
        · split at hstep
          · exact Except.noConfusion hstep
          · cases hstep; exact hinv
          · cases hstep
            intro x hx
            rcases List.mem_append.mp hx with h1 | h2
            · exact hinv x h1
            · obtain ⟨m, _, he⟩ := List.mem_map.mp h2
              subst he
              exact mergedShape_fuzzy s m _ _
        · cases hstep; exact hinv
      · cases hstep
        intro x hx
        rcases List.mem_append.mp hx with h1 | h2
        · exact hinv x h1
        · obtain ⟨m, _, he⟩ := List.mem_map.mp h2
          subst he
          exact mergedShape_exact s m _

/-- Every mention accumulated by pass 2 has merged-shape metadata. -/
theorem pass2Go_merged (s : ModuleState) (t : List String) (fz : Bool)
    (excl : Finset ℕ) :
    ∀ (l : List ℕ) (acc res : List Mention),
      pass2Go s t fz excl l acc = .ok res →
      (∀ x ∈ acc, MergedShape s x.1) → ∀ x ∈ res, MergedShape s x.1 := by
  intro l
  induction l with
  | nil => intro acc res h hinv; cases h; exact hinv
  | cons j rest ih =>
    intro acc res h hinv
    simp only [pass2Go] at h
    cases hstep : pass2Step s t fz excl acc j with
    | error e => rw [hstep] at h; exact Except.noConfusion h
    | ok acc1 =>
      rw [hstep] at h
      refine ih acc1 res h ?_
      unfold pass2Step at hstep
      split at hstep
      · cases hstep; exact hinv
      · split at hstep
        · split at hstep
          · split at hstep
            · exact Except.noConfusion hstep
            · cases hstep; exact hinv
            · cases hstep
              intro x hx
              rcases List.mem_append.mp hx with h1 | h2
              · exact hinv x h1
              · obtain ⟨m, _, he⟩ := List.mem_map.mp h2
                subst he
                exact mergedShape_fuzzy s m _ _
          · cases hstep; exact hinv
        · cases hstep
          intro x hx
          rcases List.mem_append.mp hx with h1 | h2
          · exact hinv x h1
          · obtain ⟨m, _, he⟩ := List.mem_map.mp h2
            subst he
            exact mergedShape_exact s m _

/-- C9: `find_drugs` leaves the stored canonical-data mapping untouched, and
every returned mention's record is a fresh merge of a canonical record
overlaid by a variant override, extended only by match-type, similarity, or
structure keys. -/
theorem find_drugs_merged_copy (s : ModuleState) (lines t : List String)
    (fz : Bool) (ign : Option Bool) (incl : Bool) (res : List Mention)
    (s' : ModuleState)
    (h : find_drugs s lines t fz ign incl = .ok (res, s')) :
    s'.drug_canonical_to_data = s.drug_canonical_to_data ∧
      ∀ x ∈ res, MergedShape s x.1 := by
  obtain ⟨ms1, excl, ms2, hp1, hp2, hres, hs⟩ :=
    find_drugs_ok_inv s lines t fz ign incl res s' h
  subst hres hs
  refine ⟨rfl, ?_⟩
  intro x hx
  obtain ⟨y, hy, _, hcase⟩ := finalize_mem_inv _ _ _ _ hx
  have hym : MergedShape s y.1 := by
    rcases List.mem_append.mp hy with h1 | h2
    · exact pass1Go_merged s t fz (List.range (t.length - 1)) ([], ∅)
        (ms1, excl) hp1 (by intro x hx; cases hx) y h1
    · exact pass2Go_merged s t fz excl (List.range t.length) [] ms2 hp2
        (by intro x hx; cases hx) y h2
  rcases hcase with he | he
  · rw [he]; exact hym
  · rw [he]; exact mergedShape_enrich s _ _ hym

/-- Vocabulary for the C9 witness. -/
def sW9 : ModuleState :=
  { drug_variant_to_canonical := [("a", ["c"])],
    drug_canonical_to_data := fun _ => [],
    drug_variant_to_variant_data := fun _ => [],
    dbid_to_mol_lookup := [] }

/-- Witness for C9: a call producing one exact unigram mention leaves the
canonical store untouched and yields merged-shape records. -/
theorem find_drugs_merged_copy_witness :
    sW9.drug_canonical_to_data = sW9.drug_canonical_to_data ∧
      ∀ x ∈ [(((([] : Dict)), 0, 0) : Mention)], MergedShape sW9 x.1 :=
  find_drugs_merged_copy sW9 [] ["a"] false none false
    [(([] : Dict), 0, 0)] sW9 rfl

/-! ## Fuzzy unigram span (C10) -/

/-- Shared concrete evaluation: over the vocabulary keys `["abcd"]` the
query `"abc"` fuzzy-matches `"abcd"` with similarity 1/2 (one matching gram
over the stale-union denominator of size 2). -/
theorem gfm_abc : get_fuzzy_match ["abcd"] "abc" = .ok (some ("abcd", 1/2)) := by
  have hbc : buildCounterGo ["abcd"] (get_ngrams_list "abc") [] =
      .ok [("abcd", 1)] := by decide
  have hcard : (staleNgrams ["abcd"] ∪ get_ngrams "abcd").card = 2 := by decide
  have hj : ((1 : ℕ) : ℚ) /
      ((staleNgrams ["abcd"] ∪ get_ngrams "abcd").card : ℚ) = 1/2 := by
    rw [hcard]; norm_num
  have hmax : maxByVal (jaccardList ["abcd"] [("abcd", 1)]) =
      some ("abcd", 1/2) := by
    simp only [jaccardList, List.map, maxByVal, List.foldl, hj]
  exact get_fuzzy_match_eq_of _ _ _ _ _ hbc hmax (by decide)

/-- C10: a fuzzy-accepted unigram match at token index `i` always emits
mentions with end index `i + 1`; when `i` is the last index, the end index
equals the token-sequence length and is therefore not a valid token
position. -/
theorem find_drugs_fuzzy_unigram_span (s : ModuleState) (lines t : List String)
    (ign : Option Bool) (i : ℕ) (ms1 : List Mention) (excl : Finset ℕ)
    (ms2 res : List Mention) (s' : ModuleState) (v : String) (sim : ℚ)
    (hi : i < t.length) (hexcl : i ∉ excl)
    (h1 : pass1 s t true = .ok (ms1, excl))
    (hc : canonicalsOf s (pyLower (t.getD i "")) = [])
    (hf : get_fuzzy_match (vocabKeys s) (pyLower (t.getD i "")) = .ok (some (v, sim)))
    (h2 : pass2 s t true excl = .ok ms2)
    (h : find_drugs s lines t true ign false = .ok (res, s')) :
    (∀ m ∈ canonicalsOf s v, (fuzzyMatchData s m v sim, i, i + 1) ∈ res) ∧
      (i = t.length - 1 → i + 1 = t.length ∧ ¬ i + 1 < t.length) := by
  have hmem : i ∈ List.range t.length := List.mem_range.mpr hi
  have hhit := pass2Go_fuzzy_hit s t excl (List.range t.length) [] ms2 i v sim
    h2 hmem hexcl hc hf
  have hres : res = ms1 ++ ms2 := by
    rw [find_drugs_eq s lines t true ign false ms1 excl ms2 h1 h2] at h
    injection h with h'
    have h'' := congrArg Prod.fst h'
    simpa [finalize] using h''.symm
  refine ⟨?_, ?_⟩
  · intro m hm
    rw [hres]
    exact List.mem_append_right _ (hhit m hm)
  · intro hlast
    omega

/-- Vocabulary for the C10 witness. -/
def sW10 : ModuleState :=
  { drug_variant_to_canonical := [("abcd", ["c"])],
    drug_canonical_to_data := fun _ => [],
    drug_variant_to_variant_data := fun _ => [],
    dbid_to_mol_lookup := [] }

/-- Witness for C10: tokens `["abc"]`, fuzzy match on the single (last)
token at index 0 — the emitted mention ends at index 1 = length. -/
theorem find_drugs_fuzzy_unigram_span_witness :
    (∀ m ∈ canonicalsOf sW10 "abcd",
        (fuzzyMatchData sW10 m "abcd" (1/2), 0, 0 + 1) ∈
          [(fuzzyMatchData sW10 "c" "abcd" (1/2), 0, 1)]) ∧
      ((0 : ℕ) = ["abc"].length - 1 →
        0 + 1 = ["abc"].length ∧ ¬ 0 + 1 < ["abc"].length) := by
  have h1 : pass1 sW10 ["abc"] true = .ok ([], ∅) := rfl
  have hc : canonicalsOf sW10 (pyLower (["abc"].getD 0 "")) = [] := by decide
  have hf : get_fuzzy_match (vocabKeys sW10) (pyLower (["abc"].getD 0 "")) =
      .ok (some ("abcd", 1/2)) := gfm_abc
  have hcan : canonicalsOf sW10 "abcd" = ["c"] := by decide
  have hstep : pass2Step sW10 ["abc"] true ∅ [] 0 =
      .ok [(fuzzyMatchData sW10 "c" "abcd" (1/2), 0, 1)] := by
    have hpy : pyLower "abc" = "abc" := by decide
    have hvk : vocabKeys sW10 = ["abcd"] := rfl
    have hce : canonicalsOf sW10 "abc" = [] := by decide
    simp [pass2Step, hpy, hvk, hce, gfm_abc, hcan]
  have h2 : pass2 sW10 ["abc"] true ∅ =
      .ok [(fuzzyMatchData sW10 "c" "abcd" (1/2), 0, 1)] := by
    show pass2Go sW10 ["abc"] true ∅ (List.range 1) [] = _
    rw [show List.range 1 = [0] from rfl]
    simp [pass2Go, hstep]
  have h : find_drugs sW10 [] ["abc"] true none false =
      .ok ([(fuzzyMatchData sW10 "c" "abcd" (1/2), 0, 1)], sW10) := by
    rw [find_drugs_eq sW10 [] ["abc"] true none false [] ∅
      [(fuzzyMatchData sW10 "c" "abcd" (1/2), 0, 1)] h1 h2]
    rfl
  exact find_drugs_fuzzy_unigram_span sW10 [] ["abc"] none 0 [] ∅
    [(fuzzyMatchData sW10 "c" "abcd" (1/2), 0, 1)]
    [(fuzzyMatchData sW10 "c" "abcd" (1/2), 0, 1)] sW10 "abcd" (1/2)
    (by decide) (by decide) h1 hc hf h2 h

end DrugNER
